import Mathlib

/-!
Shallow embedding of `password-gen.py`.

Randomness is modelled as an explicit byte stream `σ : ℕ → ℕ` together with a
cursor `pos : ℕ`: the `i`-th call to the secure byte source returns `σ i`.
A well-formed stream satisfies `∀ i, σ i ≤ 255` (`os.urandom` bytes).
Every function that consumes randomness takes the stream and the cursor and
returns its result paired with the advanced cursor.  Python exceptions are
modelled with `Except PyErr`.  Python `%` on integers is floor-mod, i.e.
`Int.fmod`; `x % 0` raises `ZeroDivisionError`.
-/

/-- The Python exceptions the program can raise. -/
inductive PyErr : Type where
  /-- `Exception("0 <= start, end < 256")` raised by `randomInt`. -/
  | invalidRange : PyErr
  /-- Python `ZeroDivisionError` from `%` with zero modulus. -/
  | zeroDivision : PyErr
  /-- Python `KeyError` from a dict lookup with a missing key. -/
  | keyError : PyErr
  /-- Python `IndexError` from list indexing out of range. -/
  | indexError : PyErr
  /-- `ValueError("Insert one symbol per word at maximum.")` in `generatePassword`. -/
  | valueError : PyErr
deriving DecidableEq, Repr

/-- The stream of bytes produced by successive `os.urandom(1)` calls. -/
abbrev ByteStream : Type := ℕ → ℕ

/-- Python list indexing `l[i]`: a negative index counts from the end,
an index out of range raises `IndexError`. -/
def pyGet {α : Type} (l : List α) (i : ℤ) : Except PyErr α :=
  let j : ℤ := if i < 0 then (l.length : ℤ) + i else i
  if h : 0 ≤ j ∧ j < (l.length : ℤ) then
    Except.ok (l.get ⟨j.toNat, by omega⟩)
  else
    Except.error PyErr.indexError

/-- Python list item assignment `l[i] = a` (same index normalisation as `pyGet`). -/
def pySet {α : Type} (l : List α) (i : ℤ) (a : α) : Except PyErr (List α) :=
  let j : ℤ := if i < 0 then (l.length : ℤ) + i else i
  if 0 ≤ j ∧ j < (l.length : ℤ) then
    Except.ok (l.set j.toNat a)
  else
    Except.error PyErr.indexError

/-- Python string slice `s[:c]` (a negative bound counts from the end, clamped). -/
def pySliceTo (s : List Char) (c : ℤ) : List Char :=
  if c < 0 then s.take ((s.length : ℤ) + c).toNat else s.take c.toNat

/-- Python string slice `s[c:]` (a negative bound counts from the end, clamped). -/
def pySliceFrom (s : List Char) (c : ℤ) : List Char :=
  if c < 0 then s.drop ((s.length : ℤ) + c).toNat else s.drop c.toNat

/-- `randomInt(start, end, iterations)` from `password-gen.py`.

Raises when `start < 0 or end > 255`; otherwise draws `iterations` bytes
keeping only the last (an empty draw gives `int.from_bytes(b'') = 0`), and
returns `byte % (end - start + 1) + start`, where Python `%` is `Int.fmod`
and a zero modulus raises `ZeroDivisionError`.  The cursor advances by the
number of bytes drawn. -/
def randomInt (σ : ByteStream) (start e iterations : ℤ) (pos : ℕ) :
    Except PyErr ℤ × ℕ :=
  if start < 0 ∨ 255 < e then
    (Except.error PyErr.invalidRange, pos)
  else
    let n : ℕ := iterations.toNat
    let byteVal : ℤ := if n = 0 then 0 else (σ (pos + n - 1) : ℤ)
    if e - start + 1 = 0 then
      (Except.error PyErr.zeroDivision, pos + n)
    else
      (Except.ok (Int.fmod byteVal (e - start + 1) + start), pos + n)

/-- `rollDice(offset)` from `password-gen.py`: `randomInt(0, 5) + offset`
(with `randomInt`'s default `iterations = 1000`). -/
def rollDice (σ : ByteStream) (offset : ℤ) (pos : ℕ) : Except PyErr ℤ × ℕ :=
  match randomInt σ 0 5 1000 pos with
  | (Except.error err, p) => (Except.error err, p)
  | (Except.ok v, p) => (Except.ok (v + offset), p)

theorem rollDice_eq (σ : ByteStream) (offset : ℤ) (pos : ℕ) :
    rollDice σ offset pos =
      (Except.ok (Int.fmod (σ (pos + 999) : ℤ) 6 + offset), pos + 1000) := by
  simp [rollDice, randomInt]

/-- C1: for `0 ≤ start ≤ end ≤ 255` and `iterations ≥ 1`, `randomInt` returns
normally with a value `v` satisfying `start ≤ v ≤ end`. -/
theorem randomInt_in_range (σ : ByteStream) (start e iterations : ℤ) (pos : ℕ)
    (h0 : 0 ≤ start) (h1 : start ≤ e) (h2 : e ≤ 255) (h3 : 1 ≤ iterations) :
    ∃ v p, randomInt σ start e iterations pos = (Except.ok v, p) ∧
      start ≤ v ∧ v ≤ e := by
  have hm : 0 < e - start + 1 := by omega
  refine ⟨Int.fmod ((σ (pos + iterations.toNat - 1) : ℕ) : ℤ) (e - start + 1) + start,
    pos + iterations.toNat, ?_, ?_, ?_⟩
  · have hn : iterations.toNat ≠ 0 := by omega
    simp only [randomInt]
    rw [if_neg (by omega), if_neg (by omega)]
    simp [hn]
  · have := Int.fmod_nonneg' ((σ (pos + iterations.toNat - 1) : ℕ) : ℤ) hm
    omega
  · have := Int.fmod_lt_of_pos ((σ (pos + iterations.toNat - 1) : ℕ) : ℤ) hm
    omega

/-- C1 witness: a concrete instance of `randomInt_in_range`. -/
theorem randomInt_in_range_witness :
    ∃ v p, randomInt (fun _ => 0) 0 5 1000 0 = (Except.ok v, p) ∧
      0 ≤ v ∧ v ≤ 5 :=
  randomInt_in_range (fun _ => 0) 0 5 1000 0 (by decide) (by decide) (by decide)
    (by decide)

/-- C2 counterexample: with `start = 5 > 3 = end` (an invalid range inside
`[0,255]`), `randomInt` does not raise `InvalidRangeError`; it returns
normally with value `5`. -/
theorem randomInt_start_gt_end_no_error :
    (5 : ℤ) > 3 ∧
      randomInt (fun _ => 0) 5 3 1000 0 = (Except.ok 5, 1000) := by
  constructor
  · decide
  · simp [randomInt]

/-- C2 (amended): `randomInt` raises `InvalidRangeError` iff
`start < 0 or end > 255`; for all other inputs with `start ≤ end` it
returns normally. -/
theorem randomInt_invalidRange_iff (σ : ByteStream) (start e iterations : ℤ)
    (pos : ℕ) :
    ((randomInt σ start e iterations pos).1 = Except.error PyErr.invalidRange ↔
      (start < 0 ∨ 255 < e)) ∧
    (¬(start < 0 ∨ 255 < e) → start ≤ e →
      ∃ v p, randomInt σ start e iterations pos = (Except.ok v, p)) := by
  constructor
  · constructor
    · intro h
      by_contra hc
      simp only [randomInt, if_neg hc] at h
      by_cases hz : e - start + 1 = 0
      · simp [hz] at h
      · simp [hz] at h
    · intro h
      simp [randomInt, h]
  · intro hc hle
    have hz : e - start + 1 ≠ 0 := by omega
    refine ⟨Int.fmod (if iterations.toNat = 0 then 0 else
        ((σ (pos + iterations.toNat - 1) : ℕ) : ℤ)) (e - start + 1) + start,
      pos + iterations.toNat, ?_⟩
    simp only [randomInt, if_neg hc, if_neg hz]

/-- C2 amended witness: a concrete instance of `randomInt_invalidRange_iff`. -/
theorem randomInt_invalidRange_iff_witness :
    ∃ v p, randomInt (fun _ => 0) 0 5 1000 0 = (Except.ok v, p) :=
  (randomInt_invalidRange_iff (fun _ => 0) 0 5 1000 0).2 (by decide) (by decide)

/-- C6 counterexample: on the all-zero byte stream, `rollDice` with offset `0`
returns `0`, so the value derived from the sampler before the offset is added
is `0`, which is not in `[1,6]`. -/
theorem rollDice_preoffset_zero :
    rollDice (fun _ => 0) 0 0 = (Except.ok 0, 1000) ∧ ¬ ((1 : ℤ) ≤ 0) := by
  constructor
  · simp [rollDice_eq]
  · decide

/-- C6 (amended): the value `rollDice` derives from the sampler before the
caller-supplied offset is added always lies in `[0,5]`; hence with offset `1`
(as used for wordlist keys) the roll lies in `[1,6]`. -/
theorem rollDice_range (σ : ByteStream) (offset : ℤ) (pos : ℕ) :
    ∃ v, rollDice σ offset pos = (Except.ok v, pos + 1000) ∧
      0 ≤ v - offset ∧ v - offset ≤ 5 := by
  refine ⟨Int.fmod (σ (pos + 999) : ℤ) 6 + offset, rollDice_eq σ offset pos, ?_, ?_⟩
  · have := Int.fmod_nonneg' ((σ (pos + 999) : ℕ) : ℤ) (by omega : (0:ℤ) < 6)
    omega
  · have := Int.fmod_lt_of_pos ((σ (pos + 999) : ℕ) : ℤ) (by omega : (0:ℤ) < 6)
    omega

/-- A Selection Plan: the Python dict `charsToChange` of
`word-index -> (char-index, replacement char)`, modelled as an
insertion-ordered association list with unique keys (exactly Python's
dict semantics as used by the program). -/
abbrev Plan : Type := List (ℤ × (ℤ × Char))

/-- Python dict assignment `d[k] = v`: overwrite in place when the key is
present (keeping its position), append otherwise. -/
def dictInsert (d : Plan) (k : ℤ) (v : ℤ × Char) : Plan :=
  if d.any (fun p => p.1 == k) then
    d.map (fun p => if p.1 == k then (k, v) else p)
  else
    d ++ [(k, v)]

/-- The fixed 6×6 substitution table `extraChars` from `getCharsToChange`. -/
def extraChars : List (List Char) :=
  [ ['~', '!', '#', '$', '%', '^'],
    ['&', '*', '(', ')', '-', '='],
    ['+', '[', ']', '\\', '\x7b', '\x7d'],
    [':', ';', '\x22', '\x27', '<', '>'],
    ['?', '/', '0', '1', '2', '3'],
    ['4', '5', '6', '7', '8', '9'] ]

/-- The `while len(charsToChange) < numCharsToChange` loop of
`getCharsToChange`, with explicit fuel bounding the number of iterations
(`none` = fuel exhausted before the loop finished).  One iteration samples a
word index, then that word's character index, then a replacement symbol via
two dice rolls indexing `extraChars`, and overwrites the plan entry for the
sampled word index. -/
def getCharsToChangeLoop (σ : ByteStream) (numCharsToChange : ℤ)
    (wordLengths : List ℤ) :
    ℕ → Plan → ℕ → Option (Except PyErr Plan × ℕ)
  | fuel, d, pos =>
    if (d.length : ℤ) < numCharsToChange then
      match fuel with
      | 0 => none
      | fuel' + 1 =>
        match randomInt σ 0 ((wordLengths.length : ℤ) - 1) 1000 pos with
        | (Except.error err, p) => some (Except.error err, p)
        | (Except.ok wordIdx, p1) =>
          match pyGet wordLengths wordIdx with
          | Except.error err => some (Except.error err, p1)
          | Except.ok wlen =>
            match randomInt σ 0 (wlen - 1) 1000 p1 with
            | (Except.error err, p) => some (Except.error err, p)
            | (Except.ok charIdx, p2) =>
              match rollDice σ 0 p2 with
              | (Except.error err, p) => some (Except.error err, p)
              | (Except.ok r1, p3) =>
                match pyGet extraChars r1 with
                | Except.error err => some (Except.error err, p3)
                | Except.ok row =>
                  match rollDice σ 0 p3 with
                  | (Except.error err, p) => some (Except.error err, p)
                  | (Except.ok r2, p4) =>
                    match pyGet row r2 with
                    | Except.error err => some (Except.error err, p4)
                    | Except.ok ch =>
                      getCharsToChangeLoop σ numCharsToChange wordLengths
                        fuel' (dictInsert d wordIdx (charIdx, ch)) p4
    else
      some (Except.ok d, pos)

/-- `getCharsToChange(numCharsToChange, wordLengths)`: run the loop from the
empty plan. -/
def getCharsToChange (σ : ByteStream) (numCharsToChange : ℤ)
    (wordLengths : List ℤ) (fuel : ℕ) (pos : ℕ) :
    Option (Except PyErr Plan × ℕ) :=
  getCharsToChangeLoop σ numCharsToChange wordLengths fuel [] pos

/-- `replaceChars(words, dictionary)`: for each plan entry in order, replace
the character at the planned position of the planned word by
`word[:charIdx] + char + word[charIdx+1:]` and assign it back. -/
def replaceChars (words : List (List Char)) (d : Plan) :
    Except PyErr (List (List Char)) :=
  match d with
  | [] => Except.ok words
  | (wordIdx, (charIdx, ch)) :: rest =>
    match pyGet words wordIdx with
    | Except.error err => Except.error err
    | Except.ok word =>
      match pySet words wordIdx
          (pySliceTo word charIdx ++ ch :: pySliceFrom word (charIdx + 1)) with
      | Except.error err => Except.error err
      | Except.ok words1 => replaceChars words1 rest

/-- The word-selection loop of `generatePassword`: for each of `n` iterations,
roll five dice with offset 1, use the five digits as the wordlist key, and
append the word found there (`KeyError` when absent).  The wordlist is
modelled as a map from the list of five digits to the word. -/
def selectWordsLoop (σ : ByteStream) (dictionary : List ℤ → Option (List Char)) :
    ℕ → List (List Char) → ℕ → Except PyErr (List (List Char)) × ℕ
  | 0, words, pos => (Except.ok words, pos)
  | n + 1, words, pos =>
    match rollDice σ 1 pos with
    | (Except.error err, p) => (Except.error err, p)
    | (Except.ok d1, p1) =>
      match rollDice σ 1 p1 with
      | (Except.error err, p) => (Except.error err, p)
      | (Except.ok d2, p2) =>
        match rollDice σ 1 p2 with
        | (Except.error err, p) => (Except.error err, p)
        | (Except.ok d3, p3) =>
          match rollDice σ 1 p3 with
          | (Except.error err, p) => (Except.error err, p)
          | (Except.ok d4, p4) =>
            match rollDice σ 1 p4 with
            | (Except.error err, p) => (Except.error err, p)
            | (Except.ok d5, p5) =>
              match dictionary [d1, d2, d3, d4, d5] with
              | none => (Except.error PyErr.keyError, p5)
              | some w => selectWordsLoop σ dictionary n (words ++ [w]) p5

/-- `generatePassword(dictionary, wordNum, extra)`: validate
`extra <= wordNum`, select `wordNum` words, plan `extra` substitutions from
the selected words' lengths, apply them, and join with single spaces. -/
def generatePassword (σ : ByteStream) (dictionary : List ℤ → Option (List Char))
    (wordNum extra : ℤ) (fuel : ℕ) (pos : ℕ) :
    Option (Except PyErr (List Char) × ℕ) :=
  if extra > wordNum then
    some (Except.error PyErr.valueError, pos)
  else
    match selectWordsLoop σ dictionary wordNum.toNat [] pos with
    | (Except.error err, p) => some (Except.error err, p)
    | (Except.ok words, p1) =>
      match getCharsToChange σ extra (words.map (fun w => (w.length : ℤ)))
          fuel p1 with
      | none => none
      | some (Except.error err, p) => some (Except.error err, p)
      | some (Except.ok plan, p2) =>
        match replaceChars words plan with
        | Except.error err => some (Except.error err, p2)
        | Except.ok words1 =>
          some (Except.ok (List.intercalate [' '] words1), p2)

/-- C5: when `extra > wordNum`, `generatePassword` raises the
`ExceedsWordCountError` (`ValueError`) with the cursor still at its starting
position: the validation happens before any random byte is drawn. -/
theorem generatePassword_exceeds_before_randomness (σ : ByteStream)
    (dictionary : List ℤ → Option (List Char)) (wordNum extra : ℤ)
    (fuel pos : ℕ) (h : extra > wordNum) :
    generatePassword σ dictionary wordNum extra fuel pos =
      some (Except.error PyErr.valueError, pos) := by
  simp [generatePassword, h]

/-- C5 witness: a concrete instance of
`generatePassword_exceeds_before_randomness`. -/
theorem generatePassword_exceeds_witness :
    generatePassword (fun _ => 0) (fun _ => none) 3 5 0 7 =
      some (Except.error PyErr.valueError, 7) :=
  generatePassword_exceeds_before_randomness (fun _ => 0) (fun _ => none) 3 5 0 7
    (by decide)

theorem dictInsert_length_le (d : Plan) (k : ℤ) (v : ℤ × Char) :
    (dictInsert d k v).length ≤ d.length + 1 := by
  unfold dictInsert
  split <;> simp

theorem dictInsert_length_ge (d : Plan) (k : ℤ) (v : ℤ × Char) :
    d.length ≤ (dictInsert d k v).length := by
  unfold dictInsert
  split <;> simp

theorem dictInsert_mem {d : Plan} {k : ℤ} {v : ℤ × Char}
    {entry : ℤ × (ℤ × Char)} (h : entry ∈ dictInsert d k v) :
    entry ∈ d ∨ entry = (k, v) := by
  unfold dictInsert at h
  split at h
  · rw [List.mem_map] at h
    obtain ⟨a, ha, hfa⟩ := h
    by_cases hk : a.1 == k
    · right
      rw [if_pos hk] at hfa
      exact hfa.symm
    · left
      rw [if_neg hk] at hfa
      exact hfa ▸ ha
  · rw [List.mem_append] at h
    rcases h with h | h
    · exact Or.inl h
    · simp only [List.mem_singleton] at h
      exact Or.inr h

theorem dictInsert_map_fst (d : Plan) (k : ℤ) (v : ℤ × Char) :
    (dictInsert d k v).map Prod.fst =
      if d.any (fun p => p.1 == k) then d.map Prod.fst
      else d.map Prod.fst ++ [k] := by
  by_cases h : d.any (fun p => p.1 == k)
  · rw [dictInsert, if_pos h, if_pos h, List.map_map]
    apply List.map_congr_left
    intro a _
    by_cases hk : a.1 == k
    · simp only [Function.comp_apply, if_pos hk]
      exact (eq_of_beq hk).symm
    · simp only [Function.comp_apply, if_neg hk]
  · rw [dictInsert, if_neg h, if_neg h, List.map_append]
    rfl

theorem dictInsert_keys_nodup {d : Plan} (k : ℤ) (v : ℤ × Char)
    (h : (d.map Prod.fst).Nodup) :
    ((dictInsert d k v).map Prod.fst).Nodup := by
  rw [dictInsert_map_fst]
  split
  · exact h
  · rename_i hmem
    have hk : k ∉ d.map Prod.fst := by
      intro hin
      apply hmem
      rw [List.any_eq_true]
      rw [List.mem_map] at hin
      obtain ⟨a, ha, hfa⟩ := hin
      exact ⟨a, ha, by simp [hfa]⟩
    rw [List.nodup_append]
    exact ⟨h, List.nodup_singleton k, by rw [List.disjoint_singleton]; exact hk⟩

/-- The invariant of C4: every entry of the plan names a word index in range
and a character index in bounds for that word's length. -/
def planBounded (wordLengths : List ℤ) (d : Plan) : Prop :=
  ∀ entry ∈ d, 0 ≤ entry.1 ∧ entry.1 < (wordLengths.length : ℤ) ∧
    0 ≤ entry.2.1 ∧
    ∃ L, pyGet wordLengths entry.1 = Except.ok L ∧ entry.2.1 < L

theorem planBounded_nil (wordLengths : List ℤ) : planBounded wordLengths [] := by
  intro entry he
  simp at he

theorem planBounded_dictInsert {wordLengths : List ℤ} {d : Plan} {k c : ℤ}
    {ch : Char} (hd : planBounded wordLengths d) (hk0 : 0 ≤ k)
    (hk1 : k < (wordLengths.length : ℤ)) (hc0 : 0 ≤ c)
    (hL : ∃ L, pyGet wordLengths k = Except.ok L ∧ c < L) :
    planBounded wordLengths (dictInsert d k (c, ch)) := by
  intro entry he
  rcases dictInsert_mem he with h | h
  · exact hd entry h
  · subst h
    exact ⟨hk0, hk1, hc0, hL⟩

theorem pyGet_ok_mem {α : Type} {l : List α} {i : ℤ} {a : α}
    (h : pyGet l i = Except.ok a) : a ∈ l := by
  simp only [pyGet] at h
  split at h <;> split at h <;>
    first
    | (rw [Except.ok.injEq] at h; exact h ▸ List.get_mem ..)
    | exact absurd h (by simp)

theorem randomInt_ok_mod_ne {σ : ByteStream} {start e iterations : ℤ}
    {pos : ℕ} {v : ℤ} {p : ℕ}
    (h : randomInt σ start e iterations pos = (Except.ok v, p)) :
    e - start + 1 ≠ 0 := by
  intro hz
  by_cases hc : start < 0 ∨ 255 < e
  · simp [randomInt, hc] at h
  · simp [randomInt, hc, hz] at h

theorem randomInt_zero_ok_bounds {σ : ByteStream} {e iterations : ℤ}
    {pos : ℕ} {v : ℤ} {p : ℕ}
    (h : randomInt σ 0 e iterations pos = (Except.ok v, p)) (he : 0 ≤ e) :
    0 ≤ v ∧ v ≤ e := by
  by_cases hc : (0 : ℤ) < 0 ∨ 255 < e
  · rcases hc with hc | hc
    · exact absurd hc (by omega)
    · simp [randomInt, hc] at h
  · have hz : e - 0 + 1 ≠ 0 := by omega
    simp only [randomInt, if_neg hc, if_neg hz, Prod.mk.injEq,
      Except.ok.injEq] at h
    obtain ⟨h1, _⟩ := h
    have hm : (0 : ℤ) < e - 0 + 1 := by omega
    have n1 := Int.fmod_nonneg' (if iterations.toNat = 0 then 0 else
      ((σ (pos + iterations.toNat - 1) : ℕ) : ℤ)) hm
    have n2 := Int.fmod_lt_of_pos (if iterations.toNat = 0 then 0 else
      ((σ (pos + iterations.toNat - 1) : ℕ) : ℤ)) hm
    omega

theorem getCharsToChangeLoop_invariant (σ : ByteStream) (num : ℤ)
    (wl : List ℤ) (hpos : ∀ L ∈ wl, 0 < L) :
    ∀ (fuel : ℕ) (d : Plan) (pos : ℕ) (d1 : Plan) (p1 : ℕ),
      (d.map Prod.fst).Nodup → planBounded wl d → (d.length : ℤ) ≤ num →
      getCharsToChangeLoop σ num wl fuel d pos = some (Except.ok d1, p1) →
      (d1.map Prod.fst).Nodup ∧ (d1.length : ℤ) = num ∧ planBounded wl d1 := by
  intro fuel
  induction fuel with
  | zero =>
    intro d pos d1 p1 hnd hb hlen h
    rw [getCharsToChangeLoop] at h
    by_cases hc : (d.length : ℤ) < num
    · rw [if_pos hc] at h
      exact absurd h (by simp)
    · rw [if_neg hc] at h
      rw [Option.some.injEq, Prod.mk.injEq, Except.ok.injEq] at h
      obtain ⟨h1, _⟩ := h
      subst h1
      exact ⟨hnd, by omega, hb⟩
  | succ f ih =>
    intro d pos d1 p1 hnd hb hlen h
    rw [getCharsToChangeLoop] at h
    by_cases hc : (d.length : ℤ) < num
    · rw [if_pos hc] at h
      split at h
      · simp at h
      · rename_i wordIdx q1 h1
        split at h
        · simp at h
        · rename_i wlen h2
          split at h
          · simp at h
          · rename_i charIdx q2 h3
            split at h
            · simp at h
            · rename_i r1 q3 h4
              split at h
              · simp at h
              · rename_i row h5
                split at h
                · simp at h
                · rename_i r2 q4 h6
                  split at h
                  · simp at h
                  · rename_i ch h7
                    have hmod := randomInt_ok_mod_ne h1
                    have hlen0 : 0 < wl.length := by omega
                    have hwb := randomInt_zero_ok_bounds h1 (by omega)
                    have hwlen_pos : 0 < wlen := hpos wlen (pyGet_ok_mem h2)
                    have hcb := randomInt_zero_ok_bounds h3 (by omega)
                    refine ih (dictInsert d wordIdx (charIdx, ch)) q4 d1 p1 ?_ ?_ ?_ h
                    · exact dictInsert_keys_nodup _ _ hnd
                    · exact planBounded_dictInsert hb hwb.1 (by omega) hcb.1
                        ⟨wlen, h2, by omega⟩
                    · have := dictInsert_length_le d wordIdx (charIdx, ch)
                      omega
    · rw [if_neg hc] at h
      rw [Option.some.injEq, Prod.mk.injEq, Except.ok.injEq] at h
      obtain ⟨h1, _⟩ := h
      subst h1
      exact ⟨hnd, by omega, hb⟩

/-- C4: when `getCharsToChange` terminates normally with `0 ≤ count ≤
len(wordLengths)` and all word lengths positive, the resulting plan holds
exactly `count` distinct word indices, each with a character index in bounds
for that word's length. -/
theorem getCharsToChange_spec (σ : ByteStream) (numCharsToChange : ℤ)
    (wordLengths : List ℤ) (fuel pos : ℕ) (d : Plan) (p : ℕ)
    (h0 : 0 ≤ numCharsToChange)
    (h1 : numCharsToChange ≤ (wordLengths.length : ℤ))
    (h2 : ∀ L ∈ wordLengths, 0 < L)
    (h : getCharsToChange σ numCharsToChange wordLengths fuel pos =
      some (Except.ok d, p)) :
    (d.map Prod.fst).Nodup ∧ (d.length : ℤ) = numCharsToChange ∧
      planBounded wordLengths d :=
  getCharsToChangeLoop_invariant σ numCharsToChange wordLengths h2 fuel [] pos
    d p (by simp) (planBounded_nil wordLengths) (by simpa using h0) h

/-- C4 witness: a concrete terminating run of `getCharsToChange`. -/
theorem getCharsToChange_spec_witness :
    ([((0 : ℤ), ((0 : ℤ), '~'))].map Prod.fst).Nodup ∧
      ([((0 : ℤ), ((0 : ℤ), '~'))].length : ℤ) = 1 ∧
        planBounded [1] [((0 : ℤ), ((0 : ℤ), '~'))] :=
  getCharsToChange_spec (fun _ => 0) 1 [1] 1 0 [((0 : ℤ), ((0 : ℤ), '~'))] 4000
    (by decide) (by decide) (by decide) (by rfl)

theorem getCharsToChangeLoop_nonpos (σ : ByteStream) (num : ℤ)
    (wl : List ℤ) (fuel : ℕ) (d : Plan) (pos : ℕ)
    (h : ¬ ((d.length : ℤ) < num)) :
    getCharsToChangeLoop σ num wl fuel d pos = some (Except.ok d, pos) := by
  rw [getCharsToChangeLoop.eq_def]
  dsimp only
  rw [if_neg h]

theorem selectWordsLoop_ok (σ : ByteStream)
    (dictionary : List ℤ → Option (List Char)) :
    ∀ (n : ℕ) (acc : List (List Char)) (pos : ℕ) (ws : List (List Char))
      (p : ℕ),
      selectWordsLoop σ dictionary n acc pos = (Except.ok ws, p) →
      ∃ new, ws = acc ++ new ∧ new.length = n ∧
        ∀ w ∈ new, ∃ k, dictionary k = some w := by
  intro n
  induction n with
  | zero =>
    intro acc pos ws p h
    rw [selectWordsLoop] at h
    rw [Prod.mk.injEq, Except.ok.injEq] at h
    exact ⟨[], by simp [h.1], rfl, by simp⟩
  | succ m ih =>
    intro acc pos ws p h
    rw [selectWordsLoop] at h
    simp only [rollDice_eq] at h
    split at h
    · simp at h
    · rename_i w hw
      obtain ⟨new, hn1, hn2, hn3⟩ := ih (acc ++ [w]) _ ws p h
      refine ⟨w :: new, by simp [hn1], by simp [hn2], ?_⟩
      intro x hx
      rcases List.mem_cons.mp hx with hx | hx
      · exact ⟨_, hx ▸ hw⟩
      · exact hn3 x hx

/-- C3: whenever `generatePassword(dictionary, 5, 0)` returns a string, that
string is exactly 5 words joined by single spaces, each word an unmodified
value of the wordlist mapping (no substitution is applied when the
substitution count is 0). -/
theorem generatePassword_no_subst (σ : ByteStream)
    (dictionary : List ℤ → Option (List Char)) (fuel pos : ℕ)
    (s : List Char) (p : ℕ)
    (h : generatePassword σ dictionary 5 0 fuel pos =
      some (Except.ok s, p)) :
    ∃ ws : List (List Char), ws.length = 5 ∧
      (∀ w ∈ ws, ∃ k, dictionary k = some w) ∧
      s = List.intercalate [' '] ws := by
  rw [generatePassword, if_neg (by omega)] at h
  split at h
  · simp at h
  · rename_i words p1 hsel
    rw [getCharsToChange, getCharsToChangeLoop_nonpos σ 0 _ fuel [] p1
      (by simp)] at h
    simp only [replaceChars, Option.some.injEq, Prod.mk.injEq,
      Except.ok.injEq] at h
    obtain ⟨hs, _⟩ := h
    obtain ⟨new, hn1, hn2, hn3⟩ := selectWordsLoop_ok σ dictionary _ [] pos
      words p1 hsel
    refine ⟨words, ?_, ?_, hs.symm⟩
    · simp [hn1, hn2]
    · intro w hw
      exact hn3 w (by simpa [hn1] using hw)

/-- C3 witness: a concrete instance of `generatePassword_no_subst`. -/
theorem generatePassword_no_subst_witness :
    ∃ ws : List (List Char), ws.length = 5 ∧
      (∀ w ∈ ws, ∃ k, (fun k : List ℤ =>
        if k = [1, 1, 1, 1, 1] then some ['a'] else none) k = some w) ∧
      ['a', ' ', 'a', ' ', 'a', ' ', 'a', ' ', 'a'] =
        List.intercalate [' '] ws :=
  generatePassword_no_subst (fun _ => 0)
    (fun k : List ℤ => if k = [1, 1, 1, 1, 1] then some ['a'] else none)
    0 0 ['a', ' ', 'a', ' ', 'a', ' ', 'a', ' ', 'a'] 25000 (by rfl)

theorem dieDigit_bounds (b : ℕ) :
    1 ≤ Int.fmod (b : ℤ) 6 + 1 ∧ Int.fmod (b : ℤ) 6 + 1 ≤ 6 := by
  have n1 := Int.fmod_nonneg' ((b : ℕ) : ℤ) (by omega : (0 : ℤ) < 6)
  have n2 := Int.fmod_lt_of_pos ((b : ℕ) : ℤ) (by omega : (0 : ℤ) < 6)
  constructor <;> omega

/-- C7: when the wordlist contains every 5-digit key over digits 1–6, the
word-selection loop never raises `UnknownKeyError` (or any error): it always
returns normally, whatever the byte stream, the word count and the starting
state. -/
theorem selectWords_complete (σ : ByteStream)
    (dictionary : List ℤ → Option (List Char))
    (hcomp : ∀ k : List ℤ, k.length = 5 → (∀ d ∈ k, 1 ≤ d ∧ d ≤ 6) →
      (dictionary k).isSome) :
    ∀ (n : ℕ) (acc : List (List Char)) (pos : ℕ),
      ∃ ws p, selectWordsLoop σ dictionary n acc pos = (Except.ok ws, p) := by
  intro n
  induction n with
  | zero =>
    intro acc pos
    exact ⟨acc, pos, rfl⟩
  | succ m ih =>
    intro acc pos
    have hkey : ∀ a b c d e : ℕ, ∃ w, dictionary
        [Int.fmod (a : ℤ) 6 + 1, Int.fmod (b : ℤ) 6 + 1,
          Int.fmod (c : ℤ) 6 + 1, Int.fmod (d : ℤ) 6 + 1,
          Int.fmod (e : ℤ) 6 + 1] = some w := by
      intro a b c d e
      have hs := hcomp [Int.fmod (a : ℤ) 6 + 1, Int.fmod (b : ℤ) 6 + 1,
        Int.fmod (c : ℤ) 6 + 1, Int.fmod (d : ℤ) 6 + 1,
        Int.fmod (e : ℤ) 6 + 1] rfl ?_
      · exact Option.isSome_iff_exists.mp hs
      · intro x hx
        simp only [List.mem_cons, List.not_mem_nil, or_false] at hx
        rcases hx with rfl | rfl | rfl | rfl | rfl <;> exact dieDigit_bounds _
    rw [selectWordsLoop]
    simp only [rollDice_eq]
    split
    · rename_i heq
      obtain ⟨w, hw⟩ := hkey (σ (pos + 999)) (σ (pos + 1000 + 999))
        (σ (pos + 1000 + 1000 + 999)) (σ (pos + 1000 + 1000 + 1000 + 999))
        (σ (pos + 1000 + 1000 + 1000 + 1000 + 999))
      rw [heq] at hw
      exact absurd hw (by simp)
    · rename_i w heq
      exact ih (acc ++ [w]) _

/-- A wordlist containing every 5-digit key over digits 1–6. -/
def fullWordlist : List ℤ → Option (List Char) :=
  fun k => if k.length = 5 ∧ ∀ d ∈ k, 1 ≤ d ∧ d ≤ 6 then some ['z'] else none

/-- C7 witness: a concrete instance of `selectWords_complete`. -/
theorem selectWords_complete_witness :
    ∃ ws p, selectWordsLoop (fun _ => 0) fullWordlist 1 [] 0 =
      (Except.ok ws, p) :=
  selectWords_complete (fun _ => 0) fullWordlist
    (fun k h1 h2 => by
      simp only [fullWordlist]
      rw [if_pos ⟨h1, h2⟩]
      rfl) 1 [] 0

theorem randomInt_error_kind {σ : ByteStream} {start e iterations : ℤ}
    {pos : ℕ} {er : PyErr} {p : ℕ}
    (h : randomInt σ start e iterations pos = (Except.error er, p)) :
    er = PyErr.invalidRange ∨ er = PyErr.zeroDivision := by
  simp only [randomInt] at h
  split at h
  · rw [Prod.mk.injEq, Except.error.injEq] at h
    exact Or.inl h.1.symm
  · split at h
    · rw [Prod.mk.injEq, Except.error.injEq] at h
      exact Or.inr h.1.symm
    · exact absurd h (by simp)

theorem pyGet_error_kind {α : Type} {l : List α} {i : ℤ} {er : PyErr}
    (h : pyGet l i = Except.error er) : er = PyErr.indexError := by
  simp only [pyGet] at h
  split at h <;> split at h <;>
    first
    | (rw [Except.error.injEq] at h; exact h.symm)
    | exact absurd h (by simp)

theorem selectWordsLoop_error_kind (σ : ByteStream)
    (dictionary : List ℤ → Option (List Char)) :
    ∀ (n : ℕ) (acc : List (List Char)) (pos : ℕ) (er : PyErr) (p : ℕ),
      selectWordsLoop σ dictionary n acc pos = (Except.error er, p) →
      er = PyErr.keyError := by
  intro n
  induction n with
  | zero =>
    intro acc pos er p h
    rw [selectWordsLoop] at h
    exact absurd h (by simp)
  | succ m ih =>
    intro acc pos er p h
    rw [selectWordsLoop] at h
    simp only [rollDice_eq] at h
    split at h
    · rw [Prod.mk.injEq, Except.error.injEq] at h
      exact h.1.symm
    · exact ih _ _ _ _ h

theorem getCharsToChangeLoop_error_kind (σ : ByteStream) (num : ℤ)
    (wl : List ℤ) :
    ∀ (fuel : ℕ) (d : Plan) (pos : ℕ) (er : PyErr) (p : ℕ),
      getCharsToChangeLoop σ num wl fuel d pos =
        some (Except.error er, p) →
      er = PyErr.invalidRange ∨ er = PyErr.zeroDivision ∨
        er = PyErr.indexError := by
  intro fuel
  induction fuel with
  | zero =>
    intro d pos er p h
    rw [getCharsToChangeLoop] at h
    split at h <;> simp at h
  | succ f ih =>
    intro d pos er p h
    rw [getCharsToChangeLoop] at h
    split at h
    · split at h
      · rename_i er1 p1 h1
        rw [Option.some.injEq, Prod.mk.injEq, Except.error.injEq] at h
        rcases randomInt_error_kind h1 with h2 | h2 <;> simp [← h.1, h2]
      · rename_i wordIdx q1 h1
        split at h
        · rename_i er1 h2
          rw [Option.some.injEq, Prod.mk.injEq, Except.error.injEq] at h
          simp [← h.1, pyGet_error_kind h2]
        · rename_i wlen h2
          split at h
          · rename_i er1 p1 h3
            rw [Option.some.injEq, Prod.mk.injEq, Except.error.injEq] at h
            rcases randomInt_error_kind h3 with h4 | h4 <;> simp [← h.1, h4]
          · rename_i charIdx q2 h3
            split at h
            · rename_i er1 p1 h4
              rw [rollDice_eq] at h4
              exact absurd h4 (by simp)
            · rename_i r1 q3 h4
              split at h
              · rename_i er1 h5
                rw [Option.some.injEq, Prod.mk.injEq, Except.error.injEq] at h
                simp [← h.1, pyGet_error_kind h5]
              · rename_i row h5
                split at h
                · rename_i er1 p1 h6
                  rw [rollDice_eq] at h6
                  exact absurd h6 (by simp)
                · rename_i r2 q4 h6
                  split at h
                  · rename_i er1 h7
                    rw [Option.some.injEq, Prod.mk.injEq,
                      Except.error.injEq] at h
                    simp [← h.1, pyGet_error_kind h7]
                  · exact ih _ _ _ _ h
    · simp at h

theorem replaceChars_error_kind :
    ∀ (d : Plan) (words : List (List Char)) (er : PyErr),
      replaceChars words d = Except.error er → er = PyErr.indexError := by
  intro d
  induction d with
  | nil =>
    intro words er h
    rw [replaceChars] at h
    exact absurd h (by simp)
  | cons e rest ih =>
    intro words er h
    obtain ⟨wordIdx, charIdx, ch⟩ := e
    rw [replaceChars] at h
    split at h
    · rename_i er1 h1
      rw [Except.error.injEq] at h
      exact h ▸ pyGet_error_kind h1
    · rename_i word h1
      split at h
      · rename_i er1 h2
        rw [Except.error.injEq] at h
        subst h
        simp only [pySet] at h2
        split at h2 <;> split at h2 <;>
          first
          | (rw [Except.error.injEq] at h2; exact h2.symm)
          | exact absurd h2 (by simp)
      · exact ih _ _ h

/-- C9: calling `generatePassword` with a negative substitution count and a
positive word count never raises `ExceedsWordCountError`, and the call
behaves exactly as with substitution count 0 (the plan loop exits at once,
so no substitution is applied). -/
theorem generatePassword_negative_extra (σ : ByteStream)
    (dictionary : List ℤ → Option (List Char)) (wordNum extra : ℤ)
    (fuel pos : ℕ) (h1 : extra < 0) (h2 : 0 < wordNum) :
    generatePassword σ dictionary wordNum extra fuel pos =
      generatePassword σ dictionary wordNum 0 fuel pos ∧
    ∀ p, generatePassword σ dictionary wordNum extra fuel pos ≠
      some (Except.error PyErr.valueError, p) := by
  constructor
  · rw [generatePassword, generatePassword, if_neg (by omega),
      if_neg (by omega)]
    rcases hsel : selectWordsLoop σ dictionary wordNum.toNat [] pos
      with ⟨r, p1⟩
    cases r with
    | error er =>
      rfl
    | ok words =>
      dsimp only
      rw [getCharsToChange, getCharsToChange,
        getCharsToChangeLoop_nonpos σ extra _ fuel [] p1 (by simp; omega),
        getCharsToChangeLoop_nonpos σ 0 _ fuel [] p1 (by simp)]
  · intro p hcon
    rw [generatePassword, if_neg (by omega)] at hcon
    split at hcon
    · rename_i er p1 hsel
      rw [Option.some.injEq, Prod.mk.injEq, Except.error.injEq] at hcon
      have hk := selectWordsLoop_error_kind σ dictionary _ _ _ _ _ hsel
      obtain ⟨he, _⟩ := hcon
      rw [hk] at he
      exact absurd he (by decide)
    · rename_i words p1 hsel
      split at hcon
      · exact absurd hcon (by simp)
      · rename_i er p2 hplan
        rw [Option.some.injEq, Prod.mk.injEq, Except.error.injEq] at hcon
        rw [getCharsToChange] at hplan
        have hk := getCharsToChangeLoop_error_kind σ extra _ fuel [] p1 er
          p2 hplan
        obtain ⟨he, _⟩ := hcon
        rcases hk with hk | hk | hk <;> (rw [hk] at he; exact absurd he (by decide))
      · rename_i plan p2 hplan
        split at hcon
        · rename_i er hrep
          rw [Option.some.injEq, Prod.mk.injEq, Except.error.injEq] at hcon
          have hk := replaceChars_error_kind plan words er hrep
          obtain ⟨he, _⟩ := hcon
          rw [hk] at he
          exact absurd he (by decide)
        · exact absurd hcon (by simp)

/-- C9 witness: a concrete instance of `generatePassword_negative_extra`. -/
theorem generatePassword_negative_extra_witness :
    (generatePassword (fun _ => 0)
        (fun k : List ℤ => if k = [1, 1, 1, 1, 1] then some ['a'] else none)
        1 (-3) 0 0 =
      generatePassword (fun _ => 0)
        (fun k : List ℤ => if k = [1, 1, 1, 1, 1] then some ['a'] else none)
        1 0 0 0) ∧
    ∀ p, generatePassword (fun _ => 0)
        (fun k : List ℤ => if k = [1, 1, 1, 1, 1] then some ['a'] else none)
        1 (-3) 0 0 ≠
      some (Except.error PyErr.valueError, p) :=
  generatePassword_negative_extra (fun _ => 0)
    (fun k : List ℤ => if k = [1, 1, 1, 1, 1] then some ['a'] else none)
    1 (-3) 0 0 (by decide) (by decide)

/-- C10: the plan sampler is byte-limited.  With at least one substitution
requested, `getCharsToChange` raises the sampler's `InvalidRangeError` (a)
when more than 256 word lengths are supplied, because the word-index range
`[0, len-1]` has `end > 255`, and (b) when the sampled target word's length
exceeds 256, because the character-index range does; consequently
`generatePassword` can never return a password when `wordNum > 256` and
`1 ≤ extra ≤ wordNum`. -/
theorem getCharsToChange_bytelimited :
    (∀ (σ : ByteStream) (num : ℤ) (wl : List ℤ) (fuel pos : ℕ),
      1 ≤ num → 256 < (wl.length : ℤ) →
      getCharsToChange σ num wl (fuel + 1) pos =
        some (Except.error PyErr.invalidRange, pos)) ∧
    (∀ (σ : ByteStream) (num : ℤ) (wl : List ℤ) (fuel pos : ℕ)
        (wordIdx : ℤ) (p1 : ℕ) (L : ℤ),
      1 ≤ num →
      randomInt σ 0 ((wl.length : ℤ) - 1) 1000 pos =
        (Except.ok wordIdx, p1) →
      pyGet wl wordIdx = Except.ok L → 256 < L →
      getCharsToChange σ num wl (fuel + 1) pos =
        some (Except.error PyErr.invalidRange, p1)) ∧
    (∀ (σ : ByteStream) (dictionary : List ℤ → Option (List Char))
        (wordNum extra : ℤ) (fuel pos : ℕ) (s : List Char) (p : ℕ),
      256 < wordNum → 1 ≤ extra → extra ≤ wordNum →
      generatePassword σ dictionary wordNum extra fuel pos ≠
        some (Except.ok s, p)) := by
  refine ⟨?_, ?_, ?_⟩
  · intro σ num wl fuel pos h1 h2
    rw [getCharsToChange, getCharsToChangeLoop.eq_def]
    dsimp only
    rw [if_pos (by simp; omega)]
    have hri : randomInt σ 0 ((wl.length : ℤ) - 1) 1000 pos =
        (Except.error PyErr.invalidRange, pos) := by
      simp only [randomInt]
      rw [if_pos (Or.inr (by omega))]
    simp only [hri]
  · intro σ num wl fuel pos wordIdx p1 L h1 hri hL h256
    rw [getCharsToChange, getCharsToChangeLoop.eq_def]
    dsimp only
    rw [if_pos (by simp; omega)]
    have hri2 : randomInt σ 0 (L - 1) 1000 p1 =
        (Except.error PyErr.invalidRange, p1) := by
      simp only [randomInt]
      rw [if_pos (Or.inr (by omega))]
    simp only [hri, hL, hri2]
  · intro σ dictionary wordNum extra fuel pos s p hw he1 he2 hcon
    rw [generatePassword, if_neg (by omega)] at hcon
    split at hcon
    · exact absurd hcon (by simp)
    · rename_i words p1 hsel
      obtain ⟨new, hn1, hn2, -⟩ := selectWordsLoop_ok σ dictionary _ [] pos
        words p1 hsel
      have hwl : 256 <
          ((List.map (fun w : List Char => (w.length : ℤ)) words).length : ℤ) := by
        simp only [List.length_map, hn1, List.nil_append, hn2]
        omega
      split at hcon
      · exact absurd hcon (by simp)
      · exact absurd hcon (by simp)
      · rename_i plan p2 hplan
        rw [getCharsToChange, getCharsToChangeLoop.eq_def] at hplan
        dsimp only at hplan
        rw [if_pos (by simp; omega)] at hplan
        cases fuel with
        | zero => exact absurd hplan (by simp)
        | succ f =>
          have hri : randomInt σ 0
              (((List.map (fun w : List Char => (w.length : ℤ)) words).length : ℤ)
                - 1) 1000 p1 =
              (Except.error PyErr.invalidRange, p1) := by
            simp only [randomInt]
            rw [if_pos (Or.inr (by omega))]
          simp only [hri] at hplan
          exact absurd hplan (by simp)

/-- C10 witness: concrete instances of all three parts of
`getCharsToChange_bytelimited`. -/
theorem getCharsToChange_bytelimited_witness :
    getCharsToChange (fun _ => 0) 1 (List.replicate 257 (1 : ℤ)) 1 0 =
      some (Except.error PyErr.invalidRange, 0) ∧
    getCharsToChange (fun _ => 0) 1 [(300 : ℤ)] 1 0 =
      some (Except.error PyErr.invalidRange, 1000) ∧
    generatePassword (fun _ => 0) (fun _ => some ['a']) 257 1 0 0 ≠
      some (Except.ok [], 0) :=
  ⟨getCharsToChange_bytelimited.1 (fun _ => 0) 1 (List.replicate 257 (1 : ℤ))
      0 0 (by decide) (by rw [List.length_replicate]; norm_num),
    getCharsToChange_bytelimited.2.1 (fun _ => 0) 1 [(300 : ℤ)] 0 0 0 1000 300
      (by decide) (by rfl) (by rfl) (by decide),
    getCharsToChange_bytelimited.2.2 (fun _ => 0) (fun _ => some ['a'])
      257 1 0 0 [] 0 (by decide) (by decide) (by decide)⟩

theorem set_eq_take_cons_drop {α : Type} :
    ∀ (l : List α) (n : ℕ) (a : α), n < l.length →
      l.take n ++ a :: l.drop (n + 1) = l.set n a := by
  intro l
  induction l with
  | nil =>
    intro n a h
    simp at h
  | cons x xs ih =>
    intro n a h
    cases n with
    | zero => simp
    | succ m =>
      simp only [List.take_succ_cons, List.drop_succ_cons,
        List.set_cons_succ, List.cons_append, List.cons.injEq, true_and]
      exact ih m a (by simpa using h)

theorem set_getD_self {α : Type} :
    ∀ (l : List α) (n : ℕ) (dflt : α), n < l.length →
      l.set n (l.getD n dflt) = l := by
  intro l
  induction l with
  | nil =>
    intro n _ h
    simp at h
  | cons x xs ih =>
    intro n dflt h
    cases n with
    | zero => simp
    | succ m =>
      simp only [List.getD_cons_succ, List.set_cons_succ, List.cons.injEq,
        true_and]
      exact ih m dflt (by simpa using h)

theorem getD_set_self {α : Type} (l : List α) (n : ℕ) (a dflt : α)
    (h : n < l.length) : (l.set n a).getD n dflt = a := by
  rw [List.getD_eq_getElem?_getD, List.getElem?_set_self h]
  rfl

theorem getD_set_ne {α : Type} (l : List α) {i j : ℕ} (hij : i ≠ j)
    (a dflt : α) : (l.set i a).getD j dflt = l.getD j dflt := by
  rw [List.getD_eq_getElem?_getD, List.getElem?_set_ne hij,
    ← List.getD_eq_getElem?_getD]

theorem pyGet_of_bounds {α : Type} (l : List α) (i : ℤ) (dflt : α)
    (h0 : 0 ≤ i) (h1 : i < (l.length : ℤ)) :
    pyGet l i = Except.ok (l.getD i.toNat dflt) := by
  have hneg : ¬ i < 0 := by omega
  have hJ : (if i < 0 then (l.length : ℤ) + i else i) = i := if_neg hneg
  have hlt : i.toNat < l.length := by omega
  simp only [pyGet]
  rw [dif_pos (by rw [hJ]; exact ⟨h0, h1⟩), Except.ok.injEq,
    List.getD_eq_get?, List.get?_eq_get hlt, Option.getD_some]
  congr 1
  apply Fin.ext
  simp only [hJ]

theorem pySet_of_bounds {α : Type} (l : List α) (i : ℤ) (a : α)
    (h0 : 0 ≤ i) (h1 : i < (l.length : ℤ)) :
    pySet l i a = Except.ok (l.set i.toNat a) := by
  simp only [pySet]
  rw [if_neg (by omega : ¬ i < 0), if_pos ⟨h0, h1⟩]

theorem pySlice_replace (word : List Char) (c : ℤ) (ch : Char)
    (h0 : 0 ≤ c) (h1 : c < (word.length : ℤ)) :
    pySliceTo word c ++ ch :: pySliceFrom word (c + 1) =
      word.set c.toNat ch := by
  rw [pySliceTo, if_neg (by omega), pySliceFrom, if_neg (by omega)]
  have h2 : (c + 1).toNat = c.toNat + 1 := by omega
  rw [h2]
  exact set_eq_take_cons_drop word c.toNat ch (by omega)

theorem replaceChars_cons_of_bounds (words : List (List Char)) (k c : ℤ)
    (ch : Char) (rest : Plan) (hk0 : 0 ≤ k) (hk1 : k < (words.length : ℤ))
    (hc0 : 0 ≤ c) (hc1 : c < ((words.getD k.toNat []).length : ℤ)) :
    replaceChars words ((k, (c, ch)) :: rest) =
      replaceChars
        (words.set k.toNat ((words.getD k.toNat []).set c.toNat ch))
        rest := by
  rw [replaceChars]
  rw [pyGet_of_bounds words k [] hk0 hk1]
  dsimp only
  rw [pySlice_replace _ c ch hc0 hc1]
  rw [pySet_of_bounds words k _ hk0 hk1]

/-- In-bounds condition of C8: each plan entry's word index is a valid index
into `words`, and its character index a valid index into that word. -/
def planInBounds (words : List (List Char)) (d : Plan) : Prop :=
  ∀ entry ∈ d, 0 ≤ entry.1 ∧ entry.1 < (words.length : ℤ) ∧
    0 ≤ entry.2.1 ∧ entry.2.1 < ((words.getD entry.1.toNat []).length : ℤ)

theorem replaceChars_ok (d : Plan) :
    ∀ words : List (List Char), planInBounds words d →
      (d.map Prod.fst).Nodup →
      ∃ ws, replaceChars words d = Except.ok ws ∧
        ws.length = words.length ∧
        (∀ n : ℕ, (ws.getD n []).length = (words.getD n []).length) ∧
        (∀ n : ℕ, ((n : ℤ) ∉ d.map Prod.fst) →
          ws.getD n [] = words.getD n []) ∧
        (∀ entry ∈ d,
          (ws.getD entry.1.toNat []).getD entry.2.1.toNat ' ' =
            entry.2.2) := by
  induction d with
  | nil =>
    intro words _ _
    exact ⟨words, rfl, rfl, fun _ => rfl, fun _ _ => rfl, by simp⟩
  | cons e rest ih =>
    obtain ⟨k, c, ch⟩ := e
    intro words hbd hnd
    obtain ⟨hk0, hk1, hc0, hc1⟩ := hbd (k, (c, ch)) (List.mem_cons_self _ _)
    dsimp only at hk0 hk1 hc0 hc1
    rw [List.map_cons, List.nodup_cons] at hnd
    obtain ⟨hknotin, hnd1⟩ := hnd
    have hshape_len :
        (words.set k.toNat ((words.getD k.toNat []).set c.toNat ch)).length =
          words.length := by
      simp
    have hshape : ∀ n : ℕ,
        ((words.set k.toNat
            ((words.getD k.toNat []).set c.toNat ch)).getD n []).length =
          (words.getD n []).length := by
      intro n
      by_cases hn : k.toNat = n
      · subst hn
        rw [getD_set_self _ _ _ _ (by omega)]
        simp
      · rw [getD_set_ne _ hn]
    have hbd1 : planInBounds
        (words.set k.toNat ((words.getD k.toNat []).set c.toNat ch)) rest := by
      intro entry hmem
      obtain ⟨a1, a2, a3, a4⟩ := hbd entry (List.mem_cons_of_mem _ hmem)
      refine ⟨a1, ?_, a3, ?_⟩
      · rw [hshape_len]
        exact a2
      · rw [hshape entry.1.toNat]
        exact a4
    obtain ⟨ws, hws, hlen, hsh, hut, hch⟩ := ih _ hbd1 hnd1
    refine ⟨ws, ?_, ?_, ?_, ?_, ?_⟩
    · rw [replaceChars_cons_of_bounds words k c ch rest hk0 hk1 hc0 hc1]
      exact hws
    · rw [hlen, hshape_len]
    · intro n
      rw [hsh n, hshape n]
    · intro n hn
      rw [List.map_cons, List.mem_cons] at hn
      push_neg at hn
      rw [hut n hn.2, getD_set_ne _ (by omega : k.toNat ≠ n)]
    · intro entry hmem
      rcases List.mem_cons.mp hmem with heq | hmem2
      · subst heq
        dsimp only
        have hget : ws.getD k.toNat [] =
            (words.set k.toNat
              ((words.getD k.toNat []).set c.toNat ch)).getD k.toNat [] := by
          refine hut k.toNat ?_
          rw [Int.toNat_of_nonneg hk0]
          exact hknotin
        rw [hget, getD_set_self _ _ _ _ (by omega),
          getD_set_self _ _ _ _ (by omega)]
      · exact hch entry hmem2

theorem replaceChars_fixed (d : Plan) :
    ∀ ws : List (List Char), planInBounds ws d →
      (∀ entry ∈ d,
        (ws.getD entry.1.toNat []).getD entry.2.1.toNat ' ' = entry.2.2) →
      replaceChars ws d = Except.ok ws := by
  induction d with
  | nil =>
    intro ws _ _
    rfl
  | cons e rest ih =>
    obtain ⟨k, c, ch⟩ := e
    intro ws hbd hch
    obtain ⟨hk0, hk1, hc0, hc1⟩ := hbd (k, (c, ch)) (List.mem_cons_self _ _)
    dsimp only at hk0 hk1 hc0 hc1
    have hc := hch (k, (c, ch)) (List.mem_cons_self _ _)
    dsimp only at hc
    rw [replaceChars_cons_of_bounds ws k c ch rest hk0 hk1 hc0 hc1]
    have hw : (ws.getD k.toNat []).set c.toNat ch = ws.getD k.toNat [] := by
      conv_lhs => rw [← hc]
      exact set_getD_self _ _ _ (by omega)
    rw [hw, set_getD_self _ _ _ (by omega)]
    exact ih ws (fun x hx => hbd x (List.mem_cons_of_mem _ hx))
      (fun x hx => hch x (List.mem_cons_of_mem _ hx))

/-- C8: `replaceChars` is idempotent for a fixed in-bounds plan: applying the
plan once succeeds, and applying it a second time to the result returns that
result unchanged (overwriting a position with the same symbol is stable). -/
theorem replaceChars_idempotent (words : List (List Char)) (d : Plan)
    (hnd : (d.map Prod.fst).Nodup) (hbd : planInBounds words d) :
    ∃ ws, replaceChars words d = Except.ok ws ∧
      replaceChars ws d = Except.ok ws := by
  obtain ⟨ws, hws, hlen, hsh, hut, hch⟩ := replaceChars_ok d words hbd hnd
  refine ⟨ws, hws, replaceChars_fixed d ws ?_ hch⟩
  intro entry he
  obtain ⟨a1, a2, a3, a4⟩ := hbd entry he
  refine ⟨a1, ?_, a3, ?_⟩
  · rw [hlen]
    exact a2
  · rw [hsh entry.1.toNat]
    exact a4

/-- C8 witness: a concrete instance of `replaceChars_idempotent`. -/
theorem replaceChars_idempotent_witness :
    ∃ ws, replaceChars [['a', 'b'], ['c']] [(0, (1, '!')), (1, (0, '?'))] =
        Except.ok ws ∧
      replaceChars ws [(0, (1, '!')), (1, (0, '?'))] = Except.ok ws :=
  replaceChars_idempotent [['a', 'b'], ['c']] [(0, (1, '!')), (1, (0, '?'))]
    (by decide) (by unfold planInBounds; decide)
